import Mathlib

/-
  Verification of the extensible vector-quantization (VQ) subsystem of the
  UEFL repository (src/model/vqmodel.py).

  Shallow embedding conventions:
  - tensors are lists of rational rows; floating point is modelled by exact
    rational (or real, for perplexity) arithmetic;
  - the mutable codebook ModuleList is passed as explicit state;
  - fallible Python operations (indexing errors) return Except values;
  - random nn.Embedding initialization is modelled by an explicit
    (row, column) -> value parameter standing for the RNG draw;
  - autodiff is modelled by dual numbers (value, tangent); detach zeroes
    the tangent.
-/

namespace VQModel

/-- Feature or codeword vector: one row of embedding_dim rationals. -/
abbrev Row : Type := List ℚ

/-- Codebook: num_embeddings codeword rows (the weight matrix of one nn.Embedding). -/
abbrev Mat : Type := List Row

/-- Codebook store: the ModuleList self.codebooks of extVQ / UEFL. -/
abbrev Store : Type := List Mat

/-- Dot product of two rows. -/
def dot (x y : Row) : ℚ := (List.zipWith (fun a b => a * b) x y).sum

/-- Squared Euclidean norm of a row. -/
def sqnorm (x : Row) : ℚ := dot x x

/-- Distances of one flattened feature row to every accessible codeword,
using the expansion of vqmodel.py lines 178-182:
sum(x^2) + sum(c^2) - 2 * x . c. -/
def distRow (x : Row) (codes : Mat) : List ℚ :=
  codes.map (fun c => sqnorm x + sqnorm c - 2 * dot x c)

/-- Index of the first minimum of a list (torch.argmin along dim 1,
stable first-occurrence tie-break). -/
def argminIdx : List ℚ → ℕ
  | [] => 0
  | [_] => 0
  | x :: y :: rest =>
    let j := argminIdx (y :: rest)
    if x ≤ (y :: rest).getD j 0 then 0 else j + 1

/-- One-hot row of length m with the 1 at position i
(torch.zeros followed by scatter_ on line 186-187). -/
def oneHot (m i : ℕ) : List ℚ :=
  (List.range m).map (fun j => if j = i then 1 else 0)

/-- Encoding matrix of vqmodel.py lines 184-187: one one-hot row per
flattened feature row, selecting its nearest accessible codeword. -/
def encodings (flat : List Row) (codes : Mat) : List (List ℚ) :=
  flat.map (fun x => oneHot codes.length (argminIdx (distRow x codes)))

/-- Scale a row by a scalar. -/
def scaleRow (a : ℚ) (r : Row) : Row := r.map (fun y => a * y)

/-- Componentwise sum of two rows. -/
def addRows (r s : Row) : Row := List.zipWith (fun a b => a + b) r s

/-- All-zero row of width d. -/
def zeroRow (d : ℕ) : Row := List.replicate d 0

/-- Matrix product (torch.matmul on line 190): row i of the result is the
linear combination of the rows of b weighted by row i of a. -/
def matMul (a b : Mat) : Mat :=
  a.map (fun r => (List.zipWith scaleRow r b).foldl addRows (zeroRow ((b.headD []).length)))

/-- Indexing semantics of nn.ModuleList.__getitem__: an index in
[-len, len) is accepted, negative indices wrap by adding len, anything
else raises IndexError. -/
def moduleListGet (store : Store) (idx : ℤ) : Except String Mat :=
  if -(store.length : ℤ) ≤ idx ∧ idx < (store.length : ℤ) then
    match store.get? (if idx < 0 then idx + store.length else idx).toNat with
    | some m => Except.ok m
    | none => Except.error "index out of range"
  else Except.error "index out of range"

/-- Accessible codewords of vqmodel.py lines 170-175: codebook 0 alone for
idx = 0, otherwise codebook 0 concatenated with codebook idx. -/
def selectCodes (store : Store) (idx : ℤ) : Except String Mat :=
  if idx = 0 then moduleListGet store 0
  else
    match moduleListGet store 0 with
    | Except.error e => Except.error e
    | Except.ok c0 =>
      match moduleListGet store idx with
      | Except.error e => Except.error e
      | Except.ok ck => Except.ok (c0 ++ ck)

/-- extVQ.forward (vqmodel.py lines 154-202) as a state-passing function on
the codebook store, restricted to the store-relevant data: the optional
append of a fresh codebook (ext flag, line 166-167), codeword selection,
encoding and quantization. fresh models the random nn.Embedding appended
when ext is true. Returns the new store together with either the
(quantized rows, encodings) pair or the Python indexing error. -/
def extVQforward (store : Store) (flat : List Row) (idx : ℤ) (ext : Bool)
    (fresh : Mat) : Store × Except String (Mat × List (List ℚ)) :=
  let store1 := if ext then store ++ [fresh] else store
  match selectCodes store1 idx with
  | Except.error e => (store1, Except.error e)
  | Except.ok codes =>
    let enc := encodings flat codes
    (store1, Except.ok (matMul enc codes, enc))

/-- Scalar carrying a value and a tangent (directional derivative),
modelling one autodiff-tracked tensor entry. -/
structure Dual where
  val : ℚ
  grad : ℚ
deriving DecidableEq

instance : Add Dual := ⟨fun a b => ⟨a.val + b.val, a.grad + b.grad⟩⟩

instance : Sub Dual := ⟨fun a b => ⟨a.val - b.val, a.grad - b.grad⟩⟩

/-- Tensor.detach(): same value, gradient cut to zero. -/
def Dual.detach (d : Dual) : Dual := ⟨d.val, 0⟩

/-- Straight-through estimator of vqmodel.py line 197:
quantized = inputs + (quantized - inputs).detach(), componentwise. -/
def straightThrough (inputs quantizedRaw : List Dual) : List Dual :=
  List.zipWith (fun x q => x + Dual.detach (q - x)) inputs quantizedRaw

/-- UEFL.load_codebooks (vqmodel.py lines 265-267): for i in
range(len(store)): store[i].weight.data = new[i]. The Python loop raises
IndexError when new runs out before store does; the error value carries
the store as it stands at that moment (the already-overwritten prefix is
kept, the rest is untouched). -/
def loadCodebooks : Store → List Mat → Except (List Mat) (List Mat)
  | [], _ => Except.ok []
  | s :: ss, [] => Except.error (s :: ss)
  | _ :: ss, n :: ns =>
    match loadCodebooks ss ns with
    | Except.ok t => Except.ok (n :: t)
    | Except.error t => Except.error (n :: t)

/-- Weight matrix of a freshly constructed nn.Embedding(numEmb, dim):
rand models the random draw, the shape is numEmb rows of width dim. -/
def freshCodebook (rand : ℕ → ℕ → ℚ) (numEmb dim : ℕ) : Mat :=
  (List.range numEmb).map (fun i => (List.range dim).map (fun j => rand i j))

/-- UEFL.extend_codebooks (vqmodel.py lines 270-272): append one fresh
codebook, but only when the iteration argument exceeds 1. -/
def extendCodebooks (iteration : ℤ) (fresh : Mat) (store : Store) : Store :=
  if 1 < iteration then store ++ [fresh] else store

/-- UEFL.init_codebooks (vqmodel.py lines 239-255), store-relevant part:
the external sklearn KMeans fit is modelled by its outcome kmeansResult
(ok with the centroid matrix, or error when clustering fails, e.g. fewer
feature rows than clusters). On success the target codebook is overwritten
with the centroids; on failure the exception propagates and the store is
untouched. Returns the final store and the reported error, if any. -/
def initCodebooks (store : Store) (idx : ℕ) (kmeansResult : Except String Mat) :
    Store × Option String :=
  match kmeansResult with
  | Except.error e => (store, some e)
  | Except.ok centers => (store.set idx centers, none)

/-- EMA cluster-size accumulation of vqmodel.py lines 103-104:
cluster_size * decay + (1 - decay) * column-sums-of-encodings,
componentwise. -/
def emaClusterSize (decay : ℚ) (old s : List ℚ) : List ℚ :=
  List.zipWith (fun c x => c * decay + (1 - decay) * x) old s

/-- Laplace smoothing of vqmodel.py lines 106-110:
(c_i + eps) / (n + numEmb * eps) * n with n the total mass of c. -/
def laplaceSmooth (eps : ℚ) (numEmb : ℕ) (c : List ℚ) : List ℚ :=
  c.map (fun ci => (ci + eps) / (c.sum + (numEmb : ℚ) * eps) * c.sum)

/-- Epsilon 1e-10 used inside the perplexity logarithm on line 199. -/
def epsQ : ℚ := 1 / 10000000000

/-- Perplexity of an average-probability vector,
exp(-sum p * log (p + 1e-10)) from vqmodel.py lines 198-199. -/
noncomputable def perplexityOf (p : List ℝ) : ℝ :=
  Real.exp (-(p.map (fun x => x * Real.log (x + (epsQ : ℝ)))).sum)

/-- Column means of the encoding matrix (torch.mean(encodings, dim=0) on
line 198), m the number of accessible codewords. -/
def avgProbs (enc : List (List ℚ)) (m : ℕ) : List ℚ :=
  (List.range m).map (fun j => (enc.map (fun r => r.getD j 0)).sum / enc.length)

/-- Perplexity of a forward pass, composed exactly as on lines 198-199. -/
noncomputable def perplexity (enc : List (List ℚ)) (m : ℕ) : ℝ :=
  perplexityOf ((avgProbs enc m).map (fun q => (q : ℝ)))

/-! Helper lemmas. -/

theorem dual_st_val (x q : Dual) : (x + Dual.detach (q - x)).val = q.val := by
  show x.val + (q.val - x.val) = q.val
  ring

theorem dual_st_grad (x q : Dual) : (x + Dual.detach (q - x)).grad = x.grad := by
  show x.grad + 0 = x.grad
  ring

theorem loadCodebooks_ok : ∀ (store new : List Mat), store.length ≤ new.length →
    loadCodebooks store new = Except.ok (new.take store.length) := by
  intro store
  induction store with
  | nil => intro new _; simp [loadCodebooks]
  | cons s ss ih =>
    intro new h
    cases new with
    | nil => simp at h
    | cons n ns =>
      have h' : ss.length ≤ ns.length := by simpa using h
      simp [loadCodebooks, ih ns h']

theorem loadCodebooks_err : ∀ (store new : List Mat), new.length < store.length →
    loadCodebooks store new = Except.error (new ++ store.drop new.length) := by
  intro store
  induction store with
  | nil => intro new h; simp at h
  | cons s ss ih =>
    intro new h
    cases new with
    | nil => simp [loadCodebooks]
    | cons n ns =>
      have h' : ns.length < ss.length := by simpa using h
      simp [loadCodebooks, ih ns h']

/-! Claim theorems. -/

/-- C2: the straight-through output of extVQ.forward equals
features + (quantized_raw - features) with the parenthesized term detached;
as values the result equals quantized_raw, and its tangent with respect to
the input features is the identity (the tangent of features passes through
unchanged). -/
theorem straight_through_identity (xs qs : List Dual) (hlen : xs.length = qs.length) :
    (straightThrough xs qs).map Dual.val = qs.map Dual.val ∧
    (straightThrough xs qs).map Dual.grad = xs.map Dual.grad := by
  induction xs generalizing qs with
  | nil =>
    cases qs with
    | nil => simp [straightThrough]
    | cons q qs => simp at hlen
  | cons x xs ih =>
    cases qs with
    | nil => simp at hlen
    | cons q qs =>
      have h := ih qs (by simpa using hlen)
      simp only [straightThrough, List.zipWith_cons_cons, List.map_cons] at h ⊢
      exact ⟨by rw [dual_st_val, h.1], by rw [dual_st_grad, h.2]⟩

/-- Witness for C2 at a concrete one-entry tensor. -/
theorem straight_through_identity_witness :
    ([Dual.mk 1 2] : List Dual).length = ([Dual.mk 5 7] : List Dual).length ∧
    ((straightThrough [Dual.mk 1 2] [Dual.mk 5 7]).map Dual.val
        = ([Dual.mk 5 7] : List Dual).map Dual.val ∧
      (straightThrough [Dual.mk 1 2] [Dual.mk 5 7]).map Dual.grad
        = ([Dual.mk 1 2] : List Dual).map Dual.grad) :=
  ⟨rfl, straight_through_identity [Dual.mk 1 2] [Dual.mk 5 7] rfl⟩

/-- C10: a forward pass of extVQ with ext = false leaves the codebook store
exactly unchanged; with ext = true the sole store mutation is the single
append of the fresh codebook, performed before codeword selection (the rest
of the pass computes on the already-extended store). -/
theorem extVQforward_store_frame (store : Store) (flat : List Row) (idx : ℤ) (fresh : Mat) :
    (extVQforward store flat idx false fresh).1 = store ∧
    (extVQforward store flat idx true fresh).1 = store ++ [fresh] ∧
    (extVQforward store flat idx true fresh).2 =
      (extVQforward (store ++ [fresh]) flat idx false fresh).2 := by
  refine ⟨?_, ?_, ?_⟩
  · cases h : selectCodes store idx <;> simp [extVQforward, h]
  · cases h : selectCodes (store ++ [fresh]) idx <;> simp [extVQforward, h]
  · cases h : selectCodes (store ++ [fresh]) idx <;> simp [extVQforward, h]

/-- C9: when the external k-means fit succeeds, init_codebooks overwrites
exactly the target codebook with the returned centroids and reports no
error; when it fails, the error is reported to the caller and the store is
completely unchanged. -/
theorem initCodebooks_spec (store : Store) (idx : ℕ) (centers : Mat) (e : String)
    (h : idx < store.length) :
    (initCodebooks store idx (Except.ok centers)).1.get? idx = some centers ∧
    (∀ j, j ≠ idx → (initCodebooks store idx (Except.ok centers)).1.get? j = store.get? j) ∧
    (initCodebooks store idx (Except.ok centers)).2 = none ∧
    initCodebooks store idx (Except.error e) = (store, some e) := by
  refine ⟨?_, ?_, rfl, rfl⟩
  · show (store.set idx centers).get? idx = some centers
    rw [List.get?_eq_getElem?]
    exact List.getElem?_set_eq_of_lt centers h
  · intro j hj
    show (store.set idx centers).get? j = store.get? j
    rw [List.get?_eq_getElem?, List.get?_eq_getElem?]
    rw [List.getElem?_set_ne (fun hh => hj hh.symm)]

/-- Witness for C9 at a concrete store and index. -/
theorem initCodebooks_spec_witness :
    (1 : ℕ) < ([[[5]], [[6]]] : Store).length ∧
    ((initCodebooks [[[5]], [[6]]] 1 (Except.ok [[9]])).1.get? 1 = some [[9]] ∧
      (∀ j, j ≠ 1 → (initCodebooks [[[5]], [[6]]] 1 (Except.ok [[9]])).1.get? j
          = ([[[5]], [[6]]] : Store).get? j) ∧
      (initCodebooks [[[5]], [[6]]] 1 (Except.ok [[9]])).2 = none ∧
      initCodebooks [[[5]], [[6]]] 1 (Except.error "kmeans failed")
        = ([[[5]], [[6]]], some "kmeans failed")) :=
  ⟨by decide, initCodebooks_spec [[[5]], [[6]]] 1 [[9]] "kmeans failed" (by decide)⟩

/-- C3 counterexample: load_codebooks is not all-or-nothing and performs no
length check. With a store of size 2, a supplied list of length 1 raises an
index error only after codebook 0 has already been overwritten (partial
overwrite), and a supplied list of length 3 succeeds silently instead of
failing with a length-mismatch error. -/
theorem loadCodebooks_not_all_or_nothing :
    loadCodebooks [[[0]], [[0]]] [[[1]]] = Except.error [[[1]], [[0]]] ∧
    loadCodebooks [[[0]], [[0]]] [[[1]], [[2]], [[3]]] = Except.ok [[[1]], [[2]]] :=
  ⟨rfl, rfl⟩

/-- C3 (amended): load_codebooks with a list of length equal to the store
size succeeds and each codebook's weights equal the supplied matrix at the
same index; a longer list also succeeds, using its first store-size entries
and ignoring the rest; a shorter list fails with an index-out-of-range
error after overwriting the first len(list) codebooks, leaving the rest
untouched (partial overwrite, not all-or-nothing). -/
theorem loadCodebooks_length_cases (store new : List Mat) :
    (store.length = new.length → loadCodebooks store new = Except.ok new) ∧
    (store.length ≤ new.length →
      loadCodebooks store new = Except.ok (new.take store.length)) ∧
    (new.length < store.length →
      loadCodebooks store new = Except.error (new ++ store.drop new.length)) := by
  refine ⟨?_, loadCodebooks_ok store new, loadCodebooks_err store new⟩
  intro h
  rw [loadCodebooks_ok store new (le_of_eq h), h, List.take_length]

/-- Witness for C3 (amended) at a concrete equal-length pair. -/
theorem loadCodebooks_length_cases_witness :
    ([[[5]], [[6]]] : Store).length = ([[[1]], [[2]]] : List Mat).length ∧
    loadCodebooks [[[5]], [[6]]] [[[1]], [[2]]] = Except.ok [[[1]], [[2]]] :=
  ⟨rfl, (loadCodebooks_length_cases [[[5]], [[6]]] [[[1]], [[2]]]).1 rfl⟩

theorem extendCodebooks_fold : ∀ (its : List ℤ) (f : Mat) (s : Store),
    (∀ i ∈ its, 1 < i) →
    (its.foldl (fun t i => extendCodebooks i f t) s).length = s.length + its.length := by
  intro its
  induction its with
  | nil => intro f s _; simp
  | cons i is ih =>
    intro f s h
    have hi : 1 < i := h i (List.mem_cons_self _ _)
    have hrest : ∀ j ∈ is, 1 < j := fun j hj => h j (List.mem_cons_of_mem _ hj)
    simp only [List.foldl_cons]
    rw [ih f _ hrest]
    simp [extendCodebooks, hi]
    omega

theorem moduleListGet_coe (st : Store) (j : ℕ) (m : Mat) (h : st.get? j = some m) :
    moduleListGet st (j : ℤ) = Except.ok m := by
  obtain ⟨hj, _⟩ := List.get?_eq_some.mp h
  unfold moduleListGet
  rw [if_pos ⟨by omega, by exact_mod_cast hj⟩, if_neg (by omega : ¬ (j : ℤ) < 0)]
  rw [Int.toNat_natCast, h]

/-- C8 counterexample: a single call of extend_codebooks with iteration 1 on
a store of size 2 leaves the store at size 2, not 2 + 1: the append is
guarded by iteration > 1, so not every call appends. -/
theorem extendCodebooks_iteration_one_noop :
    (extendCodebooks 1 (freshCodebook (fun _ _ => 0) 1 1) [[[0]], [[0]]]).length = 2 ∧
    (extendCodebooks 1 (freshCodebook (fun _ _ => 0) 1 1) [[[0]], [[0]]]).length ≠ 2 + 1 := by
  exact ⟨rfl, by decide⟩

/-- C8 (amended): extend_codebooks appends exactly one codebook when its
iteration argument exceeds 1, and is a no-op otherwise; k appending calls
on a store grow it by exactly k (so a size-2 store reaches size 2 + k);
the store size never decreases, and a freshly constructed codebook has
shape num_embeddings x embedding_dim. -/
theorem extendCodebooks_spec (it : ℤ) (f : Mat) (s : Store) (its : List ℤ)
    (rand : ℕ → ℕ → ℚ) (n d : ℕ) :
    (1 < it → extendCodebooks it f s = s ++ [f]) ∧
    (it ≤ 1 → extendCodebooks it f s = s) ∧
    s.length ≤ (extendCodebooks it f s).length ∧
    ((∀ i ∈ its, 1 < i) →
      (its.foldl (fun t i => extendCodebooks i f t) s).length = s.length + its.length) ∧
    (freshCodebook rand n d).length = n ∧
    (∀ r ∈ freshCodebook rand n d, r.length = d) := by
  refine ⟨fun h => by simp [extendCodebooks, h], fun h => ?_, ?_,
    extendCodebooks_fold its f s, by simp [freshCodebook], ?_⟩
  · have h' : ¬ 1 < it := by omega
    simp [extendCodebooks, h']
  · unfold extendCodebooks
    split <;> simp
  · intro r hr
    simp only [freshCodebook, List.mem_map] at hr
    obtain ⟨i, _, hi⟩ := hr
    simp [← hi]

/-- Witness for C8 (amended) at concrete values. -/
theorem extendCodebooks_spec_witness :
    (1 : ℤ) < 2 ∧
    extendCodebooks 2 [[0]] [[[5]], [[6]]] = [[[5]], [[6]]] ++ [[[0]]] :=
  ⟨by decide, (extendCodebooks_spec 2 [[0]] [[[5]], [[6]]] [] (fun _ _ => 0) 1 1).1 (by decide)⟩

/-- C4 counterexample: the negative silo index -1 does not make the forward
pass fail. On a store of two one-codeword codebooks, extVQ.forward with
idx = -1 succeeds: ModuleList indexing wraps negative indices, so
codebooks[-1] is the last codebook and the pass returns a quantized output
instead of an invalid-index error. -/
theorem extVQforward_negative_index_succeeds :
    extVQforward [[[1]], [[2]]] [[0]] (-1) false [] =
      ([[[1]], [[2]]], Except.ok ([[1]], [[1, 0]])) := by
  norm_num [extVQforward, selectCodes, moduleListGet, encodings, distRow, oneHot,
    argminIdx, matMul, scaleRow, addRows, zeroRow, sqnorm, dot, List.range_succ]

/-- C4 (amended): a silo index at or above the store length, or strictly
below the negated store length, makes the forward pass fail with an
index-out-of-range error, aborts the pass, and leaves the store unchanged
(with ext = false); negative indices in [-len, -1] are instead accepted by
ModuleList indexing and wrap to index len + idx. -/
theorem extVQforward_out_of_range (store : Store) (flat : List Row) (idx : ℤ) (fresh : Mat)
    (hlen : 0 < store.length)
    (hout : idx < -(store.length : ℤ) ∨ (store.length : ℤ) ≤ idx) :
    extVQforward store flat idx false fresh =
      (store, Except.error "index out of range") := by
  have hn : (0 : ℤ) < (store.length : ℤ) := by exact_mod_cast hlen
  have hidx0 : ¬ idx = 0 := by omega
  have hbad : moduleListGet store idx = Except.error "index out of range" := by
    unfold moduleListGet
    rw [if_neg]
    omega
  have h0 : store.get? 0 = some (store.get ⟨0, hlen⟩) := List.get?_eq_get hlen
  have hc0 : moduleListGet store 0 = Except.ok (store.get ⟨0, hlen⟩) := by
    have := moduleListGet_coe store 0 _ h0
    simpa using this
  have hsel : selectCodes store idx = Except.error "index out of range" := by
    unfold selectCodes
    rw [if_neg hidx0, hc0, hbad]
  simp [extVQforward, hsel]

/-- Witness for C4 (amended) at a too-large concrete index. -/
theorem extVQforward_out_of_range_witness :
    (0 : ℕ) < ([[[1]], [[2]]] : Store).length ∧
    ((5 : ℤ) < -(([[[1]], [[2]]] : Store).length : ℤ) ∨
      ((([[[1]], [[2]]] : Store).length : ℤ) ≤ 5)) ∧
    extVQforward [[[1]], [[2]]] [[0]] 5 false [] =
      ([[[1]], [[2]]], Except.error "index out of range") :=
  ⟨by decide, by right; decide,
    extVQforward_out_of_range [[[1]], [[2]]] [[0]] 5 [] (by decide) (by right; decide)⟩

/-- C1: accessible codewords of a forward pass. With silo index 0 the
selected codeword set is exactly the weights of codebook 0, and the
selection reads no codebook other than index 0 (any store agreeing at
index 0 selects the same set); with silo index k > 0 it is exactly the
concatenation of codebook 0's weights followed by codebook k's weights
(shared codewords at low indices, silo-specific at high indices), and the
selection reads no codebook other than indices 0 and k. -/
theorem selectCodes_access (store : Store) (k : ℤ) (c0 ck : Mat)
    (h0 : store.get? 0 = some c0) (hkpos : 0 < k)
    (hk : store.get? k.toNat = some ck) :
    selectCodes store 0 = Except.ok c0 ∧
    selectCodes store k = Except.ok (c0 ++ ck) ∧
    (∀ store' : Store, store'.get? 0 = some c0 → selectCodes store' 0 = Except.ok c0) ∧
    (∀ store' : Store, store'.get? 0 = some c0 → store'.get? k.toNat = some ck →
      selectCodes store' k = Except.ok (c0 ++ ck)) := by
  have sel0 : ∀ st : Store, st.get? 0 = some c0 → selectCodes st 0 = Except.ok c0 := by
    intro st h
    have := moduleListGet_coe st 0 c0 h
    simp only [Nat.cast_zero] at this
    simp [selectCodes, this]
  have selk : ∀ st : Store, st.get? 0 = some c0 → st.get? k.toNat = some ck →
      selectCodes st k = Except.ok (c0 ++ ck) := by
    intro st hh0 hhk
    have e0 : moduleListGet st 0 = Except.ok c0 := by
      have := moduleListGet_coe st 0 c0 hh0
      simpa using this
    have ek : moduleListGet st k = Except.ok ck := by
      have := moduleListGet_coe st k.toNat ck hhk
      rwa [Int.toNat_of_nonneg hkpos.le] at this
    unfold selectCodes
    rw [if_neg (by omega : ¬ k = 0), e0, ek]
  exact ⟨sel0 store h0, selk store h0 hk, sel0, selk⟩

/-- Witness for C1 at a concrete two-codebook store and silo index 1. -/
theorem selectCodes_access_witness :
    ([[[1]], [[2]]] : Store).get? 0 = some [[1]] ∧
    (0 : ℤ) < 1 ∧
    ([[[1]], [[2]]] : Store).get? (1 : ℤ).toNat = some [[2]] ∧
    (selectCodes [[[1]], [[2]]] 0 = Except.ok [[1]] ∧
      selectCodes [[[1]], [[2]]] 1 = Except.ok ([[1]] ++ [[2]])) := by
  refine ⟨rfl, by decide, rfl, ?_⟩
  have h := selectCodes_access [[[1]], [[2]]] 1 [[1]] [[2]] rfl (by decide) rfl
  exact ⟨h.1, h.2.1⟩

theorem argminIdx_lt : ∀ (l : List ℚ), l ≠ [] → argminIdx l < l.length := by
  intro l
  induction l with
  | nil => intro h; exact absurd rfl h
  | cons x xs ih =>
    intro _
    cases xs with
    | nil => simp [argminIdx]
    | cons y rest =>
      simp only [argminIdx]
      split
      · simp
      · have := ih (by simp)
        simpa using Nat.succ_lt_succ this

theorem oneHot_length (m i : ℕ) : (oneHot m i).length = m := by
  simp [oneHot]

theorem oneHot_get (m i j : ℕ) (hj : j < m) :
    (oneHot m i).get? j = some (if j = i then 1 else 0) := by
  simp only [oneHot, List.get?_eq_getElem?, List.getElem?_map, List.getElem?_range hj,
    Option.map_some']

theorem oneHot_sum : ∀ (m i : ℕ), i < m → (oneHot m i).sum = 1 := by
  intro m
  induction m with
  | zero => intro i h; exact absurd h (Nat.not_lt_zero i)
  | succ n ih =>
    intro i h
    rw [oneHot, List.range_succ, List.map_append, List.sum_append]
    by_cases hi : i = n
    · have h0 : ((List.range n).map (fun j => if j = i then (1 : ℚ) else 0)).sum = 0 := by
        apply List.sum_eq_zero
        intro x hx
        simp only [List.mem_map, List.mem_range] at hx
        obtain ⟨j, hj, hjx⟩ := hx
        rw [← hjx, if_neg (by omega)]
      rw [h0]
      simp [hi]
    · have h1 : ((List.range n).map (fun j => if j = i then (1 : ℚ) else 0)).sum = 1 :=
        ih i (by omega)
      rw [h1]
      simp [Ne.symm hi]

theorem sum_map_one {α : Type} (l : List α) :
    (l.map (fun _ => (1 : ℚ))).sum = (l.length : ℚ) := by
  induction l with
  | nil => simp
  | cons x xs ih =>
    simp only [List.map_cons, List.sum_cons, List.length_cons, ih]
    push_cast
    ring

/-- C5: the one-hot encoding matrix built by the nearest-code assignment of
extVQ.forward has exactly one entry equal to 1 in each row (every row is a
one-hot row at an in-range codeword index, all other entries 0, row sum 1),
and the sum of all its entries equals the number of flattened feature rows
(the batch size of the assignment). -/
theorem encodings_one_hot (flat : List Row) (codes : Mat) (hne : codes ≠ []) :
    (encodings flat codes).length = flat.length ∧
    (∀ r ∈ encodings flat codes, ∃ i, i < codes.length ∧ r = oneHot codes.length i ∧
      r.sum = 1 ∧ ∀ j, j < codes.length → r.get? j = some (if j = i then 1 else 0)) ∧
    ((encodings flat codes).map List.sum).sum = (flat.length : ℚ) := by
  have hargmin : ∀ x : Row, argminIdx (distRow x codes) < codes.length := by
    intro x
    have hl : distRow x codes ≠ [] := by simp [distRow, hne]
    have := argminIdx_lt (distRow x codes) hl
    simpa [distRow] using this
  refine ⟨by simp [encodings], ?_, ?_⟩
  · intro r hr
    simp only [encodings, List.mem_map] at hr
    obtain ⟨x, _, hx⟩ := hr
    refine ⟨argminIdx (distRow x codes), hargmin x, hx.symm, ?_, ?_⟩
    · rw [← hx]
      exact oneHot_sum _ _ (hargmin x)
    · intro j hj
      rw [← hx]
      exact oneHot_get _ _ _ hj
  · rw [encodings, List.map_map]
    have hcongr : ∀ x ∈ flat,
        (List.sum ∘ fun x => oneHot codes.length (argminIdx (distRow x codes))) x
          = (fun _ => (1 : ℚ)) x := by
      intro x _
      exact oneHot_sum _ _ (hargmin x)
    rw [List.map_congr_left hcongr]
    exact sum_map_one flat

/-- Witness for C5 at a concrete two-row batch against two codewords. -/
theorem encodings_one_hot_witness :
    ([[1], [2]] : Mat) ≠ [] ∧
    ((encodings [[0], [3]] [[1], [2]]).length = ([[0], [3]] : List Row).length ∧
      (∀ r ∈ encodings [[0], [3]] [[1], [2]], ∃ i, i < ([[1], [2]] : Mat).length ∧
        r = oneHot ([[1], [2]] : Mat).length i ∧ r.sum = 1 ∧
        ∀ j, j < ([[1], [2]] : Mat).length → r.get? j = some (if j = i then 1 else 0)) ∧
      ((encodings [[0], [3]] [[1], [2]]).map List.sum).sum
        = (([[0], [3]] : List Row).length : ℚ)) :=
  ⟨by decide, encodings_one_hot [[0], [3]] [[1], [2]] (by decide)⟩

theorem sum_map_affine (l : List ℚ) (a K : ℚ) :
    (l.map (fun x => (x + a) * K)).sum = (l.sum + (l.length : ℚ) * a) * K := by
  induction l with
  | nil => simp
  | cons x xs ih =>
    simp only [List.map_cons, List.sum_cons, List.length_cons, ih]
    push_cast
    ring

theorem emaClusterSize_nonneg (decay : ℚ) (h0 : 0 ≤ decay) (h1 : decay ≤ 1) :
    ∀ (old s : List ℚ), (∀ x ∈ old, 0 ≤ x) → (∀ x ∈ s, 0 ≤ x) →
      ∀ x ∈ emaClusterSize decay old s, 0 ≤ x := by
  intro old
  induction old with
  | nil =>
    intro s _ _ x hx
    simp [emaClusterSize] at hx
  | cons c cs ih =>
    intro s ho hs x hx
    cases s with
    | nil => simp [emaClusterSize] at hx
    | cons y ys =>
      simp only [emaClusterSize, List.zipWith_cons_cons, List.mem_cons] at hx
      rcases hx with h | h
      · have hc : 0 ≤ c := ho c (by simp)
        have hy : 0 ≤ y := hs y (by simp)
        rw [h]
        have t1 : 0 ≤ c * decay := mul_nonneg hc h0
        have t2 : 0 ≤ (1 - decay) * y := mul_nonneg (by linarith) hy
        linarith
      · exact ih ys (fun z hz => ho z (by simp [hz])) (fun z hz => hs z (by simp [hz])) x h

/-- C7: after the EMA cluster-size accumulation of VectorQuantizerEMA
(decay in [0,1), nonnegative accumulated sizes and encoding column sums),
the Laplace-smoothed cluster-size vector sums to exactly the same total
mass as the accumulated vector, and every smoothed entry is strictly
positive whenever the total mass is positive, so the per-codeword division
in the EMA codeword update never divides by zero. -/
theorem laplaceSmooth_mass (decay eps : ℚ) (old s : List ℚ) (numEmb : ℕ)
    (hd0 : 0 ≤ decay) (hd1 : decay < 1)
    (ho : ∀ x ∈ old, 0 ≤ x) (hs : ∀ x ∈ s, 0 ≤ x)
    (heps : 0 < eps)
    (hlen : (emaClusterSize decay old s).length = numEmb) :
    (laplaceSmooth eps numEmb (emaClusterSize decay old s)).sum
      = (emaClusterSize decay old s).sum ∧
    (0 < (emaClusterSize decay old s).sum →
      ∀ x ∈ laplaceSmooth eps numEmb (emaClusterSize decay old s), 0 < x) := by
  set c := emaClusterSize decay old s with hc
  have hcn : ∀ x ∈ c, 0 ≤ x :=
    emaClusterSize_nonneg decay hd0 (le_of_lt hd1) old s ho hs
  have hsum0 : 0 ≤ c.sum := List.sum_nonneg hcn
  constructor
  · rcases Nat.eq_zero_or_pos numEmb with h | h
    · have hnil : c = [] := List.length_eq_zero.mp (by omega)
      simp [laplaceSmooth, hnil]
    · have hden : 0 < c.sum + (numEmb : ℚ) * eps := by
        have : 0 < (numEmb : ℚ) * eps := mul_pos (by exact_mod_cast h) heps
        linarith
      have hterm : ∀ x ∈ c, (x + eps) / (c.sum + (numEmb : ℚ) * eps) * c.sum
          = (x + eps) * (c.sum / (c.sum + (numEmb : ℚ) * eps)) := by
        intro x _
        rw [div_mul_eq_mul_div, mul_div_assoc]
      rw [laplaceSmooth, List.map_congr_left hterm,
        sum_map_affine c eps (c.sum / (c.sum + (numEmb : ℚ) * eps)), hlen]
      field_simp
  · intro hpos x hx
    simp only [laplaceSmooth, List.mem_map] at hx
    obtain ⟨ci, hci, hx⟩ := hx
    have h1 : 0 < ci + eps := by
      have := hcn ci hci
      linarith
    have hM : 0 < numEmb := by
      by_contra hM
      have hnil : c = [] := List.length_eq_zero.mp (by omega)
      rw [hnil] at hpos
      simp at hpos
    have hden : 0 < c.sum + (numEmb : ℚ) * eps := by
      have : 0 < (numEmb : ℚ) * eps := mul_pos (by exact_mod_cast hM) heps
      linarith
    rw [← hx]
    exact mul_pos (div_pos h1 hden) hpos

/-- Witness for C7 at concrete decay 0, epsilon 1 and a two-codeword
accumulation. -/
theorem laplaceSmooth_mass_witness :
    ((0 : ℚ) ≤ 0 ∧ (0 : ℚ) < 1 ∧ (0 : ℚ) < 1 ∧
      (emaClusterSize 0 [1, 0] [0, 1]).length = 2) ∧
    ((laplaceSmooth 1 2 (emaClusterSize 0 [1, 0] [0, 1])).sum
        = (emaClusterSize 0 [1, 0] [0, 1]).sum ∧
      (0 < (emaClusterSize 0 [1, 0] [0, 1]).sum →
        ∀ x ∈ laplaceSmooth 1 2 (emaClusterSize 0 [1, 0] [0, 1]), 0 < x)) :=
  ⟨⟨by decide, by decide, by decide, rfl⟩,
    laplaceSmooth_mass 0 1 [1, 0] [0, 1] 2 (by decide) (by decide)
      (by decide) (by decide) (by decide) rfl⟩

theorem rsum_map_add (l : List ℝ) (f g : ℝ → ℝ) :
    (l.map (fun x => f x + g x)).sum = (l.map f).sum + (l.map g).sum := by
  induction l with
  | nil => simp
  | cons x xs ih => simp only [List.map_cons, List.sum_cons, ih]; ring

theorem rsum_map_sub (l : List ℝ) (f g : ℝ → ℝ) :
    (l.map (fun x => f x - g x)).sum = (l.map f).sum - (l.map g).sum := by
  induction l with
  | nil => simp
  | cons x xs ih => simp only [List.map_cons, List.sum_cons, ih]; ring

theorem rsum_map_neg (l : List ℝ) (f : ℝ → ℝ) :
    (l.map (fun x => -f x)).sum = -(l.map f).sum := by
  induction l with
  | nil => simp
  | cons x xs ih => simp only [List.map_cons, List.sum_cons, ih]; ring

theorem rsum_map_mulr (l : List ℝ) (K : ℝ) :
    (l.map (fun x => x * K)).sum = l.sum * K := by
  induction l with
  | nil => simp
  | cons x xs ih => simp only [List.map_cons, List.sum_cons, ih]; ring

theorem rsum_map_const (l : List ℝ) (c : ℝ) :
    (l.map (fun _ => c)).sum = (l.length : ℝ) * c := by
  induction l with
  | nil => simp
  | cons x xs ih =>
    simp only [List.map_cons, List.sum_cons, List.length_cons, ih]
    push_cast
    ring

/-- C6 (amended): the perplexity of a forward pass is
exp(-sum p * log (p + 1e-10)) of the column means p of the one-hot
encodings; for any probability vector over M accessible codewords it is
strictly positive and at most M; perfectly uniform usage gives exactly
M / (1 + M * 1e-10) (approximately but not exactly M), and a single
codeword absorbing all assignments gives exactly (1 + 1e-10)^(-1)
(approximately 1). -/
theorem perplexity_range (p : List ℝ) (M : ℕ)
    (hlen : p.length = M) (hM : 0 < M)
    (hnn : ∀ x ∈ p, 0 ≤ x) (hsum : p.sum = 1) :
    0 < perplexityOf p ∧
    perplexityOf p ≤ M ∧
    perplexityOf (List.replicate M ((M : ℝ)⁻¹)) = M / (1 + M * (epsQ : ℝ)) ∧
    perplexityOf ((1 : ℝ) :: List.replicate (M - 1) 0) = (1 + (epsQ : ℝ))⁻¹ ∧
    (∀ (enc : List (List ℚ)) (m : ℕ),
      perplexity enc m = perplexityOf ((avgProbs enc m).map (fun q => (q : ℝ)))) := by
  have hε : (0 : ℝ) < (epsQ : ℝ) := by norm_num [epsQ]
  have hMr : (0 : ℝ) < (M : ℝ) := by exact_mod_cast hM
  have hMr0 : (M : ℝ) ≠ 0 := ne_of_gt hMr
  refine ⟨Real.exp_pos _, ?_, ?_, ?_, fun enc m => rfl⟩
  · -- upper bound by M
    have key : ∀ x ∈ p, x * -Real.log (x + (epsQ : ℝ))
        ≤ x * Real.log M + (x / ((M : ℝ) * (x + (epsQ : ℝ))) - x) := by
      intro x hx
      have hx0 : 0 ≤ x := hnn x hx
      have hxe : 0 < x + (epsQ : ℝ) := by linarith
      have ht : 0 < ((M : ℝ) * (x + (epsQ : ℝ)))⁻¹ := by positivity
      have hlog : Real.log (((M : ℝ) * (x + (epsQ : ℝ)))⁻¹)
          ≤ ((M : ℝ) * (x + (epsQ : ℝ)))⁻¹ - 1 := Real.log_le_sub_one_of_pos ht
      have hsplit : -Real.log (x + (epsQ : ℝ))
          = Real.log M + Real.log (((M : ℝ) * (x + (epsQ : ℝ)))⁻¹) := by
        rw [Real.log_inv, Real.log_mul hMr0 (ne_of_gt hxe)]
        ring
      calc x * -Real.log (x + (epsQ : ℝ))
          = x * (Real.log M + Real.log (((M : ℝ) * (x + (epsQ : ℝ)))⁻¹)) := by
            rw [← hsplit]
        _ ≤ x * (Real.log M + (((M : ℝ) * (x + (epsQ : ℝ)))⁻¹ - 1)) :=
            mul_le_mul_of_nonneg_left (by linarith) hx0
        _ = x * Real.log M + (x / ((M : ℝ) * (x + (epsQ : ℝ))) - x) := by
            rw [div_eq_mul_inv]
            ring
    have hb2 : (p.map (fun x => x / ((M : ℝ) * (x + (epsQ : ℝ))))).sum ≤ 1 := by
      have hb : ∀ x ∈ p, x / ((M : ℝ) * (x + (epsQ : ℝ))) ≤ (M : ℝ)⁻¹ := by
        intro x hx
        have hx0 : 0 ≤ x := hnn x hx
        have hxe : 0 < x + (epsQ : ℝ) := by linarith
        rw [div_le_iff₀ (by positivity)]
        have hcan : (M : ℝ)⁻¹ * ((M : ℝ) * (x + (epsQ : ℝ))) = x + (epsQ : ℝ) := by
          field_simp
        rw [hcan]
        linarith
      calc (p.map (fun x => x / ((M : ℝ) * (x + (epsQ : ℝ))))).sum
          ≤ (p.map (fun _ => (M : ℝ)⁻¹)).sum := List.sum_le_sum hb
        _ = (p.length : ℝ) * (M : ℝ)⁻¹ := rsum_map_const p _
        _ = 1 := by rw [hlen]; exact mul_inv_cancel₀ hMr0
    have h2 := List.sum_le_sum key
    have split1 : (p.map (fun x => x * Real.log M
          + (x / ((M : ℝ) * (x + (epsQ : ℝ))) - x))).sum
        = (p.map (fun x => x * Real.log M)).sum
          + (p.map (fun x => x / ((M : ℝ) * (x + (epsQ : ℝ))) - x)).sum :=
      rsum_map_add p _ _
    have split2 : (p.map (fun x => x / ((M : ℝ) * (x + (epsQ : ℝ))) - x)).sum
        = (p.map (fun x => x / ((M : ℝ) * (x + (epsQ : ℝ))))).sum
          - (p.map (fun x => x)).sum :=
      rsum_map_sub p _ _
    have hid : (p.map (fun x => x)).sum = 1 := by
      rw [List.map_id']
      exact hsum
    have hlogsum : (p.map (fun x => x * Real.log M)).sum = Real.log M := by
      rw [rsum_map_mulr p (Real.log M), hsum, one_mul]
    rw [split1, split2, hid, hlogsum] at h2
    have hfinal : -(p.map (fun x => x * Real.log (x + (epsQ : ℝ)))).sum ≤ Real.log M := by
      have hneg : -(p.map (fun x => x * Real.log (x + (epsQ : ℝ)))).sum
          = (p.map (fun x => x * -Real.log (x + (epsQ : ℝ)))).sum := by
        rw [← rsum_map_neg p (fun x => x * Real.log (x + (epsQ : ℝ)))]
        exact congrArg List.sum (List.map_congr_left (fun x _ => by ring))
      rw [hneg]
      linarith
    calc perplexityOf p
        ≤ Real.exp (Real.log M) := Real.exp_le_exp.mpr hfinal
      _ = M := Real.exp_log hMr
  · -- perfectly uniform usage
    have hpos : (0 : ℝ) < (M : ℝ)⁻¹ + (epsQ : ℝ) := by positivity
    have hval : perplexityOf (List.replicate M ((M : ℝ)⁻¹))
        = ((M : ℝ)⁻¹ + (epsQ : ℝ))⁻¹ := by
      simp only [perplexityOf, List.map_replicate, List.sum_replicate, nsmul_eq_mul]
      have hmm : (M : ℝ) * ((M : ℝ)⁻¹ * Real.log ((M : ℝ)⁻¹ + (epsQ : ℝ)))
          = Real.log ((M : ℝ)⁻¹ + (epsQ : ℝ)) := by
        rw [← mul_assoc, mul_inv_cancel₀ hMr0, one_mul]
      rw [hmm, Real.exp_neg, Real.exp_log hpos]
    rw [hval]
    rw [inv_eq_iff_eq_inv, eq_comm, inv_div]
    rw [div_eq_iff hMr0]
    field_simp
    ring
  · -- single codeword absorbs everything
    have hpos1 : (0 : ℝ) < 1 + (epsQ : ℝ) := by linarith
    simp only [perplexityOf, List.map_cons, List.map_replicate, List.sum_cons,
      List.sum_replicate, nsmul_eq_mul, one_mul, zero_mul, mul_zero, add_zero]
    rw [Real.exp_neg, Real.exp_log hpos1]

/-- C6 counterexample: with a single accessible codeword (M = 1) the usage
distribution is perfectly uniform, yet the returned perplexity is
(1 + 1e-10)^(-1), strictly different from M = 1: the epsilon inside the
logarithm makes the uniform-usage perplexity only approximately M. -/
theorem perplexity_uniform_not_exact :
    perplexityOf (List.replicate 1 ((1 : ℝ)⁻¹)) ≠ 1 := by
  have hε : (0 : ℝ) < (epsQ : ℝ) := by norm_num [epsQ]
  have hval : perplexityOf (List.replicate 1 ((1 : ℝ)⁻¹)) = (1 + (epsQ : ℝ))⁻¹ := by
    simp only [inv_one, perplexityOf, List.map_replicate, List.sum_replicate,
      nsmul_eq_mul, Nat.cast_one, one_mul]
    rw [Real.exp_neg, Real.exp_log (by linarith)]
  rw [hval]
  intro h
  have h1 : (1 : ℝ) + (epsQ : ℝ) = 1 := inv_eq_one.mp h
  linarith

/-- Witness for C6 (amended) at the one-entry probability vector. -/
theorem perplexity_range_witness :
    (([(1 : ℝ)] : List ℝ).length = 1 ∧ (0 : ℕ) < 1 ∧
      (∀ x ∈ [(1 : ℝ)], 0 ≤ x) ∧ ([(1 : ℝ)] : List ℝ).sum = 1) ∧
    (0 < perplexityOf [(1 : ℝ)] ∧
      perplexityOf [(1 : ℝ)] ≤ ((1 : ℕ) : ℝ) ∧
      perplexityOf (List.replicate 1 (((1 : ℕ) : ℝ)⁻¹))
        = ((1 : ℕ) : ℝ) / (1 + ((1 : ℕ) : ℝ) * (epsQ : ℝ)) ∧
      perplexityOf ((1 : ℝ) :: List.replicate (1 - 1) 0) = (1 + (epsQ : ℝ))⁻¹ ∧
      (∀ (enc : List (List ℚ)) (m : ℕ),
        perplexity enc m = perplexityOf ((avgProbs enc m).map (fun q => (q : ℝ))))) :=
  ⟨⟨rfl, by decide, by simp, by simp⟩,
    perplexity_range [(1 : ℝ)] 1 rfl (by decide) (by simp) (by simp)⟩

end VQModel
